import Mathlib

/-!
Shallow embedding of the transaction-delta inference engine of the
transaction-pdf-raport repository (`src/src/types/solana.ts`, which also
holds the `utils/blockchain` functions, and the report dispatch in
`src/src/App.tsx` / `src/unnamed/part_000`).

JavaScript numbers are IEEE-754 binary64 doubles.  Integer-valued doubles
are modelled as `Nat`/`Int` together with an explicit rounding function
`flNat`/`flInt` that rounds an exact integer to the nearest representable
double (53-bit significand, round half to even).  `Number(s)` applied to a
decimal-integer string is modelled by `parseDecNat` composed with that
rounding; a string that is not a canonical decimal integer is modelled as
`none` (JS `NaN`), and every comparison `NaN > x` is `false`, which the
embedding mirrors through `Option Int` deltas.  Values at or above 2^1024
would overflow to `Infinity` in JS; every statement below stays far below
that regime.
-/

/-- Number of binary digits of `n` (with `bitLen 0 = 0`).  The recursion is
structural on a fuel argument (`fuel = n` suffices since `n ≥ log2 n + 1`)
so that the kernel can evaluate it. -/
def bitLenAux : Nat → Nat → Nat
  | _, 0 => 0
  | 0, _ + 1 => 0
  | f + 1, n + 1 => bitLenAux f ((n + 1) / 2) + 1

/-- Number of binary digits of `n`. -/
def bitLen (n : Nat) : Nat := bitLenAux n n

/-- Round a natural number to the nearest IEEE-754 binary64 value (53-bit
significand, round half to even), returned as the exact integer that the
double denotes.  Models the value of a JS number holding the integer `n`
(for `n` far below the 2^1024 overflow threshold). -/
def flNat (n : Nat) : Nat :=
  if n ≤ 2 ^ 53 then n
  else
    let e := bitLen n - 53
    let q := n / 2 ^ e
    let r := n % 2 ^ e
    let half := 2 ^ (e - 1)
    if half < r ∨ (r = half ∧ q % 2 = 1) then (q + 1) * 2 ^ e else q * 2 ^ e

/-- Signed version of `flNat`: the double nearest to the integer `x`. -/
def flInt (x : Int) : Int :=
  if 0 ≤ x then ((flNat x.toNat : Nat) : Int) else -((flNat (-x).toNat : Nat) : Int)

/-- Parse a run of decimal digits (accumulator form). -/
def parseDecNatAux : List Char → Nat → Option Nat
  | [], acc => some acc
  | c :: cs, acc =>
    if c.isDigit then parseDecNatAux cs (acc * 10 + (c.toNat - '0'.toNat)) else none

/-- Parse a nonempty all-digit character list as a natural number. -/
def parseDecNat : List Char → Option Nat
  | [] => none
  | cs => parseDecNatAux cs 0

/-- Value of JS `Number(s)` for a canonical decimal integer string `s`
(the shape RPC raw token amounts have): parse the digits and round to the
nearest double.  `none` models `NaN` for any other string. -/
def jsNumOfStr (s : String) : Option Int :=
  (parseDecNat s.data).map (fun n => ((flNat n : Nat) : Int))

/-- JS truthiness for an optional string: `undefined` and `""` are falsy. -/
def truthyS : Option String → Option String
  | some s => if s = "" then none else some s
  | none => none

/-- JS `a || b` on optional strings (empty string is falsy). -/
def jsOrS (a b : Option String) : Option String :=
  match truthyS a with
  | some s => some s
  | none => b

/-- JS `x > 0` where `x` may be `NaN` (`none`): `NaN > 0` is `false`. -/
def oPos : Option Int → Bool
  | some v => 0 < v
  | none => false

/-- Token amount record: `amount` is the raw smallest-unit decimal string,
`decimals` the display scale. -/
structure UiTokenAmount where
  amount : String
  decimals : Nat
deriving DecidableEq

/-- One token balance entry of `preTokenBalances` / `postTokenBalances`. -/
structure TokenBalance where
  accountIndex : Nat
  mint : String
  owner : Option String
  programId : Option String
  uiTokenAmount : UiTokenAmount
deriving DecidableEq

/-- One account key of the transaction message. -/
structure AccountMetaKey where
  pubkey : String
  signer : Bool
  writable : Bool
deriving DecidableEq

/-- Fields of `parsed.info` read by the sender refinement in `handleFetch`
(`source`, `authority`, `owner`); other dynamic fields are never read. -/
structure ParsedInfo where
  source : Option String
  authority : Option String
  owner : Option String
deriving DecidableEq

/-- A parsed instruction.  `parsedInfo` models `ix.parsed?.info`: it is
`some info` exactly when `parsed` is present and carries an `info` object
(an object is always truthy in JS). -/
structure ParsedInstruction where
  program : String
  programId : String
  parsedInfo : Option ParsedInfo
deriving DecidableEq

/-- The transaction message: ordered account keys and instructions. -/
structure TransactionMessage where
  accountKeys : List AccountMetaKey
  instructions : List ParsedInstruction
deriving DecidableEq

/-- Transaction meta record.  Native balances arrive as JSON numbers
(doubles); each entry is modelled as the exact integer the double denotes. -/
structure GetTransactionMeta where
  fee : Nat
  preBalances : List Int
  postBalances : List Int
  preTokenBalances : Option (List TokenBalance)
  postTokenBalances : Option (List TokenBalance)
deriving DecidableEq

/-- Result record of `findDeltaSOL` (`index = -1`, `deltaLamports = 0` is
the "no movement" sentinel). -/
structure DeltaSOLResult where
  index : Int
  deltaLamports : Int
deriving DecidableEq

/-- Result record of `findDeltaSPL`.  `delta` is an `Option Int` because a
non-numeric amount string would make the JS delta `NaN` (`none`). -/
structure TokenDeltaResult where
  accountIndex : Nat
  mint : String
  decimals : Nat
  delta : Option Int
  owner : Option String
deriving DecidableEq

/-- Parties guess returned by `inferParties`. -/
structure PartiesGuess where
  sender : Option String
  recipient : Option String
deriving DecidableEq

/-- Lookup of the pre-state token balance for `(accountIndex, mint)`.
The source builds a JS `Map` keyed by the string
`accountIndex ++ ":" ++ mint`; since the numeric part contains no colon the
key determines the pair, and `Map` keeps the last entry for a duplicated
key, hence the search on the reversed list. -/
def preLookup (pre : List TokenBalance) (ai : Nat) (mint : String) : Option TokenBalance :=
  pre.reverse.find? (fun b => b.accountIndex == ai && b.mint == mint)

/-- The delta the source computes for one post entry:
`Number(post.amount) - Number(pre.amount ?? 0)`, with every step under
double rounding; `none` models `NaN`. -/
def entryDelta (pre : List TokenBalance) (pb : TokenBalance) : Option Int :=
  let aPost := jsNumOfStr pb.uiTokenAmount.amount
  let aPre : Option Int :=
    match preLookup pre pb.accountIndex pb.mint with
    | some p => jsNumOfStr p.uiTokenAmount.amount
    | none => some 0
  match aPost, aPre with
  | some a, some b => some (flInt (a - b))
  | _, _ => none

/-- Exact integer delta for one post entry, following the spec's words in
section 4.2: the mathematical difference of the decimal raw amounts with no
precision loss.  Used only to compare against the source's `entryDelta`. -/
def exactEntryDelta (pre : List TokenBalance) (pb : TokenBalance) : Option Int :=
  let aPost := (parseDecNat pb.uiTokenAmount.amount.data).map (fun n => (n : Int))
  let aPre : Option Int :=
    match preLookup pre pb.accountIndex pb.mint with
    | some p => (parseDecNat p.uiTokenAmount.amount.data).map (fun n => (n : Int))
    | none => some 0
  match aPost, aPre with
  | some a, some b => some (a - b)
  | _, _ => none

/-- The record the source builds for a selected post entry. -/
def mkBest (pre : List TokenBalance) (pb : TokenBalance) : TokenDeltaResult :=
  { accountIndex := pb.accountIndex
    mint := pb.mint
    decimals := pb.uiTokenAmount.decimals
    delta := entryDelta pre pb
    owner := pb.owner }

/-- Value of `best?.delta ?? 0` in the source. -/
def bestVal : Option TokenDeltaResult → Int
  | some b => b.delta.getD 0
  | none => 0

/-- Does a post entry match the expected recipient `r`:
`owner === recipient || pubkey === recipient` (owner checked first in the
source; the short-circuit order is not observable in the result). -/
def entryMatch (keys : List AccountMetaKey) (pb : TokenBalance) (r : String) : Bool :=
  pb.owner == some r || (keys.get? pb.accountIndex).map (·.pubkey) == some r

/-- The `for (const pb of post)` loop of `findDeltaSPL`.  With a (truthy)
recipient the loop returns on the first matching entry regardless of the
delta's sign; without one it keeps the best strictly-positive improvement. -/
def splLoop (pre : List TokenBalance) (keys : List AccountMetaKey) (rt : Option String) :
    List TokenBalance → Option TokenDeltaResult → Option TokenDeltaResult
  | [], best => best
  | pb :: rest, best =>
    match rt with
    | some r =>
      if entryMatch keys pb r then some (mkBest pre pb)
      else splLoop pre keys rt rest best
    | none =>
      match entryDelta pre pb with
      | some d =>
        if bestVal best < d then splLoop pre keys rt rest (some (mkBest pre pb))
        else splLoop pre keys rt rest best
      | none => splLoop pre keys rt rest best

/-- `findDeltaSPL` from `src/src/types/solana.ts` (the blockchain utils):
token-path delta resolution. -/
def findDeltaSPL (meta : GetTransactionMeta) (msg : TransactionMessage)
    (recipient : Option String) : Option TokenDeltaResult :=
  let pre := meta.preTokenBalances.getD []
  let post := meta.postTokenBalances.getD []
  splLoop pre msg.accountKeys (truthyS recipient) post none

/-- The `for (let i = 0; ...)` loop of `findDeltaSOL`: structural recursion
over `preBalances` (the source's loop bound), carrying the index and the
running best.  `postBalances[i] ?? 0` is `post.getD i 0`; the delta is the
double subtraction, hence `flInt`. -/
def solLoop (keys : List AccountMetaKey) (post : List Int) (rt : Option String) :
    List Int → Nat → Int → Int → DeltaSOLResult
  | [], _, bestIdx, bestDelta =>
    match rt with
    | some _ => ⟨-1, 0⟩
    | none => ⟨bestIdx, bestDelta⟩
  | p :: rest, i, bestIdx, bestDelta =>
    let delta := flInt (post.getD i 0 - p)
    match rt with
    | some r =>
      if (keys.get? i).map (·.pubkey) == some r then ⟨(i : Int), delta⟩
      else solLoop keys post rt rest (i + 1) bestIdx bestDelta
    | none =>
      if bestDelta < delta then solLoop keys post rt rest (i + 1) (i : Int) delta
      else solLoop keys post rt rest (i + 1) bestIdx bestDelta

/-- `findDeltaSOL` from the blockchain utils: native-path delta resolution. -/
def findDeltaSOL (meta : GetTransactionMeta) (msg : TransactionMessage)
    (recipient : Option String) : DeltaSOLResult :=
  solLoop msg.accountKeys meta.postBalances (truthyS recipient) meta.preBalances 0 (-1) 0

/-- `inferParties` from the blockchain utils: fee payer plus the first
writable key after index 0. -/
def inferParties (msg : TransactionMessage) : PartiesGuess :=
  let keys := msg.accountKeys
  { sender := (keys.get? 0).map (·.pubkey)
    recipient := (keys.enum.find? (fun p => 0 < p.1 && p.2.writable)).map (·.2.pubkey) }

/-- JS array access `keys[i]?.pubkey` for a possibly negative index. -/
def keyAtInt (keys : List AccountMetaKey) (i : Int) : Option String :=
  if i < 0 then none else (keys.get? i.toNat).map (·.pubkey)

/-- The recipient form field normalised as the source does
(`recipient || undefined`). -/
def strToOpt (s : String) : Option String := if s = "" then none else some s

/-- The classification the `handleFetch` dispatcher builds.  `unknownKind`
corresponds to report type `"none"` / asset kind `"Unknown"` (no amount
fields).  The display-only `amountUi` / `amountSOL` float divisions are
presentation conversions of `amountRaw` / `amountLamports` and are not
modelled. -/
inductive Report where
  | spl (mint : String) (amountRaw : Option Int) (decimals : Nat) (recipient : Option String)
  | sol (amountLamports : Int) (recipient : Option String)
  | unknownKind (sender : Option String) (recipient : Option String)
deriving DecidableEq

/-- The report-classification block of `handleFetch` (App.tsx lines 53-79):
token path first, then native path, then the party-inferrer fallback. -/
def buildReport (meta : GetTransactionMeta) (msg : TransactionMessage)
    (recipientField : String) : Report :=
  let rq := strToOpt recipientField
  let spl := findDeltaSPL meta msg rq
  let sol := findDeltaSOL meta msg rq
  let fallback : Report :=
    if 0 < sol.deltaLamports then
      Report.sol sol.deltaLamports (jsOrS rq (keyAtInt msg.accountKeys sol.index))
    else
      Report.unknownKind (inferParties msg).sender (inferParties msg).recipient
  match spl with
  | some s =>
    if oPos s.delta then
      Report.spl s.mint s.delta s.decimals
        (jsOrS rq (jsOrS s.owner ((msg.accountKeys.get? s.accountIndex).map (·.pubkey))))
    else fallback
  | none => fallback

/-- The sender-refinement block of `handleFetch` (App.tsx lines 81-94):
take the first instruction with `parsed?.info`, then
`info?.source || info?.authority || info?.owner || inferParties(message).sender`.
The surrounding `try`/`catch` cannot fire on this total model. -/
def refineSender (msg : TransactionMessage) : Option String :=
  let parsedIx := msg.instructions.find? (fun ix => ix.parsedInfo.isSome)
  let info := parsedIx.bind (·.parsedInfo)
  jsOrS (info.bind (fun i => i.source))
    (jsOrS (info.bind (fun i => i.authority))
      (jsOrS (info.bind (fun i => i.owner)) (inferParties msg).sender))

/-- Modelled from the spec: section 4.5's wording takes the sender from the
first parsed instruction *that carries* a `source`, `authority`, or `owner`
field (in that priority order), falling back to the party inferrer only
when no instruction exposes any of those fields.  Defined only to be
compared against the source's `refineSender`. -/
def refineSenderClaimed (msg : TransactionMessage) : Option String :=
  let payload : ParsedInstruction → Option String := fun ix =>
    ix.parsedInfo.bind (fun i => jsOrS i.source (jsOrS i.authority (jsOrS i.owner none)))
  match (msg.instructions.find? (fun ix => (payload ix).isSome)).bind payload with
  | some s => some s
  | none => (inferParties msg).sender

/-- Character class `[1-9A-HJ-NP-Za-km-z]` of the source's regex: base58,
excluding `0`, `O`, `I`, `l`. -/
def isB58 (c : Char) : Bool :=
  ('1' ≤ c && c ≤ '9') || ('A' ≤ c && c ≤ 'H') || ('J' ≤ c && c ≤ 'N') ||
    ('P' ≤ c && c ≤ 'Z') || ('a' ≤ c && c ≤ 'k') || ('m' ≤ c && c ≤ 'z')

/-- Length of the maximal base58 run at the head of the list. -/
def b58Run : List Char → Nat
  | [] => 0
  | c :: cs => if isB58 c then b58Run cs + 1 else 0

/-- Does `cs` start with the pattern `pat`? -/
def listStarts : List Char → List Char → Bool
  | [], _ => true
  | _ :: _, [] => false
  | p :: ps, c :: cs => p == c && listStarts ps cs

/-- The three literal explorer URL markers of the source's regex, in the
regex's alternative order. -/
def sigMarkers : List (List Char) :=
  ["solscan.io/tx/".data, "explorer.solana.com/tx/".data, "solanafm.com/tx/".data]

/-- The capture group `([1-9A-HJ-NP-Za-km-z]{87,88})`: the greedy match
takes `min run 88` characters and succeeds iff the run has at least 87. -/
def captureAt (cs : List Char) : Option (List Char) :=
  if 87 ≤ b58Run cs then some (cs.take (min (b58Run cs) 88)) else none

/-- Try the regex's alternatives at one position: one of the URL markers
followed by the capture, or (only at the start of the string, the `^`
alternative) the bare capture. -/
def matchHere (cs : List Char) (atStart : Bool) : Option (List Char) :=
  match sigMarkers.findSome? (fun mk =>
      if listStarts mk cs then captureAt (cs.drop mk.length) else none) with
  | some sig => some sig
  | none => if atStart then captureAt cs else none

/-- Leftmost-match scan of the regex over the input. -/
def scanFrom : List Char → Bool → Option (List Char)
  | [], _ => none
  | c :: rest, atStart =>
    match matchHere (c :: rest) atStart with
    | some sig => some sig
    | none => scanFrom rest false

/-- JS whitespace for `trim` (the ASCII part; exotic Unicode space
characters are irrelevant to every statement below). -/
def isJsWs (c : Char) : Bool :=
  c == ' ' || c == '\t' || c == '\n' || c == '\r' || c == '\x0b' || c == '\x0c'

/-- JS `String.prototype.trim`. -/
def jsTrim (cs : List Char) : List Char :=
  ((cs.dropWhile isJsWs).reverse.dropWhile isJsWs).reverse

/-- `parseSignature` from the blockchain utils: trim, reject the empty
string, then take the first regex match's capture group. -/
def parseSignature (input : String) : Option String :=
  let t := jsTrim input.data
  if t.isEmpty then none
  else (scanFrom t true).map (fun l => ⟨l⟩)

/-- Outcome of the validation gate at the top of `handleFetch`. -/
inductive FetchOutcome where
  | validationError
  | rpcCall (sig : String)
deriving DecidableEq

/-- The validation gate of `handleFetch`: `parseSignature(input) ?? ""`
followed by `if (!sig) { setError(...); return; }` — a failed extraction
surfaces a validation error before any network call. -/
def fetchGate (input : String) : FetchOutcome :=
  match parseSignature input with
  | some s => if s = "" then .validationError else .rpcCall s
  | none => .validationError

/-- Shorthand for the pubkey at index `j`. -/
def keyAt (keys : List AccountMetaKey) (j : Nat) : Option String :=
  (keys.get? j).map (·.pubkey)

/-- Zero-padding of the post balances up to the pre-balances length. -/
def padZeros (n : Nat) (l : List Int) : List Int := l ++ List.replicate (n - l.length) 0

/-- Post token-balance entry holding the raw amount 2^53 + 1 (inside the
signed 64-bit range) as its decimal string. -/
def c1pb : TokenBalance := ⟨0, "MintX", some "OwnerX", none, ⟨"9007199254740993", 0⟩⟩

def c1meta : GetTransactionMeta :=
  { fee := 0, preBalances := [], postBalances := [],
    preTokenBalances := some [], postTokenBalances := some [c1pb] }

def c1msg : TransactionMessage := { accountKeys := [⟨"Addr0", true, true⟩], instructions := [] }

/-- Two account keys but only one pre-balance entry: the source's loop stops
at `preBalances.length`, so index 1 is never scanned. -/
def c3meta : GetTransactionMeta :=
  { fee := 0, preBalances := [0], postBalances := [0, 100],
    preTokenBalances := none, postTokenBalances := none }

def c3msg : TransactionMessage :=
  { accountKeys := [⟨"A", true, true⟩, ⟨"B", false, true⟩], instructions := [] }

def w2meta : GetTransactionMeta :=
  { fee := 0, preBalances := [10, 5], postBalances := [10, 3],
    preTokenBalances := none, postTokenBalances := none }

def w2msg : TransactionMessage :=
  { accountKeys := [⟨"A", true, true⟩, ⟨"B", false, true⟩], instructions := [] }

/-- Does the post entry at index `j` (if any) match the recipient `r`? -/
def matchAtIdx (keys : List AccountMetaKey) (post : List TokenBalance) (r : String)
    (j : Nat) : Bool :=
  ((post.get? j).map (fun pb => entryMatch keys pb r)).getD false

def w4meta : GetTransactionMeta :=
  { fee := 0, preBalances := [], postBalances := [],
    preTokenBalances := some [],
    postTokenBalances := some
      [⟨0, "M1", some "O1", none, ⟨"5", 2⟩⟩, ⟨1, "M1", some "O2", none, ⟨"9", 2⟩⟩] }

def w4msg : TransactionMessage :=
  { accountKeys := [⟨"A", true, true⟩, ⟨"B", false, true⟩], instructions := [] }

def w6meta : GetTransactionMeta :=
  { fee := 0, preBalances := [], postBalances := [],
    preTokenBalances := some [⟨0, "M", some "R", none, ⟨"10", 0⟩⟩],
    postTokenBalances := some [⟨0, "M", some "R", none, ⟨"3", 0⟩⟩] }

def w6msg : TransactionMessage :=
  { accountKeys := [⟨"A", true, true⟩], instructions := [] }

def w10meta : GetTransactionMeta :=
  { fee := 0, preBalances := [], postBalances := [],
    preTokenBalances := some [],
    postTokenBalances := some [⟨0, "M", some "X", none, ⟨"100", 0⟩⟩] }

def w10msg : TransactionMessage :=
  { accountKeys := [⟨"A", true, true⟩], instructions := [] }

def w5meta : GetTransactionMeta :=
  { fee := 0, preBalances := [100, 0], postBalances := [0, 100],
    preTokenBalances := some [],
    postTokenBalances := some [⟨1, "M", some "B", none, ⟨"7", 0⟩⟩] }

def w5msg : TransactionMessage :=
  { accountKeys := [⟨"A", true, true⟩, ⟨"B", false, true⟩], instructions := [] }

/-- Is the account key at index `j` (if any) writable? -/
def writableAt (keys : List AccountMetaKey) (j : Nat) : Bool :=
  ((keys.get? j).map (·.writable)).getD false

def w8msg : TransactionMessage :=
  { accountKeys := [⟨"A", true, false⟩, ⟨"B", false, true⟩], instructions := [] }

/-- Does the instruction at index `j` (if any) carry a `parsed.info`? -/
def infoAt (ixs : List ParsedInstruction) (j : Nat) : Bool :=
  ((ixs.get? j).map (fun ix => ix.parsedInfo.isSome)).getD false

/-- First instruction carries `parsed.info` but none of the three sender
fields; the second carries `source = S`.  The code stops at the first one. -/
def c9msg : TransactionMessage :=
  { accountKeys := [⟨"A", true, true⟩],
    instructions :=
      [⟨"p1", "pid1", some ⟨none, none, none⟩⟩,
       ⟨"p2", "pid2", some ⟨some "S", none, none⟩⟩] }

def w9msg : TransactionMessage :=
  { accountKeys := [⟨"A", true, true⟩],
    instructions := [⟨"p", "pid", some ⟨none, some "AuthZ", some "OwnQ"⟩⟩] }

/-- Raw 84-character base58 input (the shortest length the claim says is
accepted). -/
def sig84 : String := ⟨List.replicate 84 'A'⟩

/-- Raw 87-character base58 signature. -/
def sig87 : String := ⟨List.replicate 87 'B'⟩

/-- An explorer URL wrapping `sig87`. -/
def url87 : String := "https://solscan.io/tx/" ++ sig87

/-! Lemmas and claim theorems. -/

lemma flNat_small {n : Nat} (h : n ≤ 2 ^ 53) : flNat n = n := by
  unfold flNat
  rw [if_pos h]

lemma flInt_small {x : Int} (h : x.natAbs ≤ 2 ^ 53) : flInt x = x := by
  have hp : (2 : Nat) ^ 53 = 9007199254740992 := by norm_num
  rw [hp] at h
  unfold flInt
  split
  · rw [flNat_small (by rw [hp]; omega)]
    omega
  · rw [flNat_small (by rw [hp]; omega)]
    omega

lemma truthyS_ne {r : String} (hr : r ≠ "") : truthyS (some r) = some r := by
  simp [truthyS, hr]

lemma solLoop_recip_nomatch (keys : List AccountMetaKey) (post : List Int) (r : String) :
    ∀ (pre : List Int) (i : Nat) (bI bD : Int),
      (∀ j, i ≤ j → j < i + pre.length → keyAt keys j ≠ some r) →
      solLoop keys post (some r) pre i bI bD = ⟨-1, 0⟩ := by
  intro pre
  induction pre with
  | nil => intro i bI bD _; rfl
  | cons p rest ih =>
    intro i bI bD h
    have h0 : keyAt keys i ≠ some r := h i (le_refl i) (by simp)
    simp only [solLoop]
    rw [if_neg (by simpa [keyAt, beq_iff_eq] using h0)]
    exact ih (i + 1) bI bD (fun j hj1 hj2 => h j (by omega) (by simp at hj2 ⊢; omega))

lemma solLoop_recip_match (keys : List AccountMetaKey) (post : List Int) (r : String) :
    ∀ (pre : List Int) (i : Nat) (bI bD : Int) (k : Nat) (hk : k < pre.length),
      keyAt keys (i + k) = some r →
      (∀ j, j < k → keyAt keys (i + j) ≠ some r) →
      solLoop keys post (some r) pre i bI bD =
        ⟨((i + k : Nat) : Int), flInt (post.getD (i + k) 0 - pre.get ⟨k, hk⟩)⟩ := by
  intro pre
  induction pre with
  | nil => intro i bI bD k hk; exact absurd hk (by simp)
  | cons p rest ih =>
    intro i bI bD k hk hmatch hbefore
    cases k with
    | zero =>
      simp only [solLoop]
      rw [if_pos (by simpa [keyAt, beq_iff_eq] using hmatch)]
      simp
    | succ k2 =>
      have h0 : keyAt keys i ≠ some r := by
        have := hbefore 0 (Nat.succ_pos k2)
        simpa using this
      simp only [solLoop]
      rw [if_neg (by simpa [keyAt, beq_iff_eq] using h0)]
      have hk2 : k2 < rest.length := by simpa using Nat.lt_of_succ_lt_succ hk
      have := ih (i + 1) bI bD k2 hk2
        (by rw [show i + 1 + k2 = i + (k2 + 1) by omega]; exact hmatch)
        (fun j hj => by
          rw [show i + 1 + j = i + (j + 1) by omega]
          exact hbefore (j + 1) (by omega))
      rw [this, show i + 1 + k2 = i + (k2 + 1) from by omega]
      rfl

lemma solLoop_congr (keys1 keys2 : List AccountMetaKey) (post1 post2 : List Int)
    (rt : Option String) :
    ∀ (pre : List Int) (i : Nat) (bI bD : Int),
      (∀ j, i ≤ j → j < i + pre.length → keys1.get? j = keys2.get? j) →
      (∀ j, i ≤ j → j < i + pre.length → post1.getD j 0 = post2.getD j 0) →
      solLoop keys1 post1 rt pre i bI bD = solLoop keys2 post2 rt pre i bI bD := by
  intro pre
  induction pre with
  | nil => intro i bI bD _ _; rfl
  | cons p rest ih =>
    intro i bI bD hk hp
    have hk0 : keys1.get? i = keys2.get? i := hk i (le_refl i) (by simp)
    have hp0 : post1.getD i 0 = post2.getD i 0 := hp i (le_refl i) (by simp)
    have hk1 : ∀ j, i + 1 ≤ j → j < i + 1 + rest.length → keys1.get? j = keys2.get? j :=
      fun j h1 h2 => hk j (by omega) (by simp at h2 ⊢; omega)
    have hp1 : ∀ j, i + 1 ≤ j → j < i + 1 + rest.length → post1.getD j 0 = post2.getD j 0 :=
      fun j h1 h2 => hp j (by omega) (by simp at h2 ⊢; omega)
    cases rt with
    | some r =>
      simp only [solLoop, hk0, hp0]
      by_cases hm : ((keys2.get? i).map (·.pubkey) == some r) = true
      · rw [if_pos hm, if_pos hm]
      · rw [if_neg hm, if_neg hm]
        exact ih (i + 1) bI bD hk1 hp1
    | none =>
      simp only [solLoop, hk0, hp0]
      by_cases hb : bD < flInt (post2.getD i 0 - p)
      · rw [if_pos hb, if_pos hb]
        exact ih (i + 1) i.cast (flInt (post2.getD i 0 - p)) hk1 hp1
      · rw [if_neg hb, if_neg hb]
        exact ih (i + 1) bI bD hk1 hp1

lemma replicate_getD (k j : Nat) : (List.replicate k (0 : Int)).getD j 0 = 0 := by
  induction k generalizing j with
  | zero => simp [List.getD]
  | succ k2 ih =>
    cases j with
    | zero => simp [List.replicate]
    | succ j2 => simpa [List.replicate] using ih j2

lemma padZeros_getD (n : Nat) (l : List Int) (j : Nat) :
    (padZeros n l).getD j 0 = l.getD j 0 := by
  unfold padZeros
  by_cases h : j < l.length
  · simp [List.getD, List.getElem?_append_left h]
  · push_neg at h
    simp only [List.getD, List.get?_eq_getElem?, List.getElem?_append_right h,
      List.getElem?_replicate, List.getElem?_eq_none h]
    split <;> simp

lemma getD_bounds {l : List Int} (h : ∀ x ∈ l, 0 ≤ x ∧ x < 2 ^ 53) (k : Nat) :
    0 ≤ l.getD k 0 ∧ l.getD k 0 < 2 ^ 53 := by
  by_cases hk : k < l.length
  · rw [List.getD_eq_get l 0 hk]
    exact h (l.get ⟨k, hk⟩) (List.get_mem l k hk)
  · push_neg at hk
    rw [List.getD_eq_default l 0 hk]
    norm_num

/-- C1: the claim states that `findDeltaSPL`'s per-entry token delta equals
the exact integer difference of the raw amount strings, with no precision
loss, for amounts at least up to the signed 64-bit range.  The code instead
converts the raw amount strings with `Number(...)` (binary64): at the raw
amount 2^53 + 1 = 9007199254740993 (well inside the 64-bit signed range,
with no pre entry, i.e. pre amount 0) the computed delta is 2^53 =
9007199254740992, not the exact difference 9007199254740993.  The spec
("must use exact integer/decimal arithmetic semantics, not floating-point")
is clearly the intent and the code a slip, so this is a code bug. -/
theorem C1_token_delta_precision_bug :
    (9007199254740993 : Int) < 2 ^ 63 ∧
    exactEntryDelta [] c1pb = some 9007199254740993 ∧
    entryDelta [] c1pb = some 9007199254740992 ∧
    findDeltaSPL c1meta c1msg none =
      some ⟨0, "MintX", 0, some 9007199254740992, some "OwnerX"⟩ ∧
    entryDelta [] c1pb ≠ exactEntryDelta [] c1pb := by
  refine ⟨by norm_num, by decide, by decide, by decide, by decide⟩

/-- C2: with an expected recipient, `findDeltaSOL` returns the first
account (in index order) whose address equals the recipient, with delta
`post[k] - pre[k]` regardless of sign, and returns the sentinel
`(-1, 0)` when no account's address matches, never substituting another
account.  Stated over index-aligned balance snapshots (the data-model
invariant `len(preBalances) = len(accountKeys)`), with balances in the
double-exact range `[0, 2^53)` so that the JS subtraction is exact. -/
theorem C2_native_recipient_scan (meta : GetTransactionMeta) (msg : TransactionMessage)
    (r : String) (hr : r ≠ "")
    (hlen : meta.preBalances.length = msg.accountKeys.length)
    (hpre : ∀ x ∈ meta.preBalances, 0 ≤ x ∧ x < 2 ^ 53)
    (hpost : ∀ x ∈ meta.postBalances, 0 ≤ x ∧ x < 2 ^ 53) :
    (∀ k, keyAt msg.accountKeys k = some r →
      (∀ j, j < k → keyAt msg.accountKeys j ≠ some r) →
      findDeltaSOL meta msg (some r) =
        ⟨(k : Int), meta.postBalances.getD k 0 - meta.preBalances.getD k 0⟩) ∧
    ((∀ j, keyAt msg.accountKeys j ≠ some r) →
      findDeltaSOL meta msg (some r) = ⟨-1, 0⟩) := by
  constructor
  · intro k hk hbefore
    have hkl : k < msg.accountKeys.length := by
      by_contra hcon
      push_neg at hcon
      rw [keyAt, List.get?_len_le hcon] at hk
      simp at hk
    have hkp : k < meta.preBalances.length := by omega
    have hstep := solLoop_recip_match msg.accountKeys meta.postBalances r
      meta.preBalances 0 (-1) 0 k hkp (by simpa using hk)
      (fun j hj => by simpa using hbefore j hj)
    simp only [Nat.zero_add] at hstep
    rw [findDeltaSOL, truthyS_ne hr, hstep]
    rw [← List.getD_eq_get meta.preBalances 0 hkp]
    rw [flInt_small ?_]
    have h1 := getD_bounds hpost k
    have h2 := getD_bounds hpre k
    have hp : (2 : Nat) ^ 53 = 9007199254740992 := by norm_num
    rw [hp]
    have hq : (2 : Int) ^ 53 = 9007199254740992 := by norm_num
    rw [hq] at h1 h2
    omega
  · intro hnone
    rw [findDeltaSOL, truthyS_ne hr]
    exact solLoop_recip_nomatch msg.accountKeys meta.postBalances r
      meta.preBalances 0 (-1) 0 (fun j _ _ => hnone j)

/-- C2 witness: keys `[A, B]`, recipient `B` at index 1 with a negative
delta `3 - 5 = -2` is still returned (sign-independent). -/
theorem C2_native_recipient_scan_witness :
    findDeltaSOL w2meta w2msg (some "B") = ⟨1, -2⟩ := by
  have := (C2_native_recipient_scan w2meta w2msg "B" (by decide) (by decide)
    (by decide) (by decide)).1 1 (by decide) (by decide)
  simpa using this

lemma splLoop_none_iff (pre : List TokenBalance) (keys : List AccountMetaKey) :
    ∀ (post : List TokenBalance) (best : Option TokenDeltaResult),
      splLoop pre keys none post best = none ↔
        best = none ∧ ∀ pb ∈ post, ∀ d, entryDelta pre pb = some d → d ≤ 0 := by
  intro post
  induction post with
  | nil => intro best; simp [splLoop]
  | cons pb rest ih =>
    intro best
    simp only [splLoop]
    cases hd : entryDelta pre pb with
    | none =>
      rw [ih best]
      constructor
      · rintro ⟨h1, h2⟩
        exact ⟨h1, fun q hq d hdq => by
          rcases List.mem_cons.mp hq with rfl | hq2
          · rw [hd] at hdq; exact absurd hdq (by simp)
          · exact h2 q hq2 d hdq⟩
      · rintro ⟨h1, h2⟩
        exact ⟨h1, fun q hq d hdq => h2 q (List.mem_cons_of_mem pb hq) d hdq⟩
    | some d =>
      dsimp only
      by_cases hlt : bestVal best < d
      · rw [if_pos hlt, ih (some (mkBest pre pb))]
        constructor
        · rintro ⟨h1, _⟩
          exact absurd h1 (by simp)
        · rintro ⟨rfl, h2⟩
          have := h2 pb (List.mem_cons_self pb rest) d hd
          simp [bestVal] at hlt
          omega
      · rw [if_neg hlt, ih best]
        constructor
        · rintro ⟨rfl, h2⟩
          refine ⟨rfl, fun q hq dq hdq => ?_⟩
          rcases List.mem_cons.mp hq with rfl | hq2
          · rw [hd] at hdq
            injection hdq with hdd
            simp [bestVal] at hlt
            omega
          · exact h2 q hq2 dq hdq
        · rintro ⟨rfl, h2⟩
          exact ⟨rfl, fun q hq dq hdq => h2 q (List.mem_cons_of_mem pb hq) dq hdq⟩

lemma splLoop_some_spec (pre : List TokenBalance) (keys : List AccountMetaKey) :
    ∀ (post : List TokenBalance) (best : Option TokenDeltaResult) (res : TokenDeltaResult),
      splLoop pre keys none post best = some res →
      (best = some res ∧ ∀ pb ∈ post, ∀ d, entryDelta pre pb = some d → d ≤ bestVal best) ∨
      (∃ i pb dv, post.get? i = some pb ∧ entryDelta pre pb = some dv ∧
        bestVal best < dv ∧ res = mkBest pre pb ∧
        (∀ j pbj dj, j < i → post.get? j = some pbj →
          entryDelta pre pbj = some dj → dj < dv) ∧
        (∀ j pbj dj, i < j → post.get? j = some pbj →
          entryDelta pre pbj = some dj → dj ≤ dv)) := by
  intro post
  induction post with
  | nil =>
    intro best res h
    simp only [splLoop] at h
    exact Or.inl ⟨h.symm ▸ rfl, by simp⟩
  | cons pb rest ih =>
    intro best res h
    simp only [splLoop] at h
    cases hd : entryDelta pre pb with
    | none =>
      rw [hd] at h
      rcases ih best res h with ⟨h1, h2⟩ | ⟨i, q, dv, hq, hdq, hbv, hres, hlo, hhi⟩
      · refine Or.inl ⟨h1, fun q hq d hdq => ?_⟩
        rcases List.mem_cons.mp hq with rfl | hq2
        · rw [hd] at hdq; exact absurd hdq (by simp)
        · exact h2 q hq2 d hdq
      · refine Or.inr ⟨i + 1, q, dv, by simpa using hq, hdq, hbv, hres, ?_, ?_⟩
        · intro j pbj dj hj hgj hdj
          cases j with
          | zero =>
            simp at hgj
            rw [← hgj, hd] at hdj
            exact absurd hdj (by simp)
          | succ j2 => exact hlo j2 pbj dj (by omega) (by simpa using hgj) hdj
        · intro j pbj dj hj hgj hdj
          cases j with
          | zero => omega
          | succ j2 => exact hhi j2 pbj dj (by omega) (by simpa using hgj) hdj
    | some d =>
      rw [hd] at h
      dsimp only at h
      by_cases hlt : bestVal best < d
      · rw [if_pos hlt] at h
        rcases ih (some (mkBest pre pb)) res h with ⟨h1, h2⟩ | ⟨i, q, dv, hq, hdq, hbv, hres, hlo, hhi⟩
        · injection h1 with h1e
          refine Or.inr ⟨0, pb, d, rfl, hd, hlt, h1e.symm, by simp, ?_⟩
          intro j pbj dj hj hgj hdj
          cases j with
          | zero => omega
          | succ j2 =>
            have hmem : pbj ∈ rest := List.get?_mem (by simpa using hgj)
            have := h2 pbj hmem dj hdj
            simp only [bestVal, mkBest, hd, Option.getD_some] at this
            exact this
        · have hdv : d < dv := by
            simp only [bestVal, mkBest, hd, Option.getD_some] at hbv
            exact hbv
          refine Or.inr ⟨i + 1, q, dv, by simpa using hq, hdq, lt_trans hlt hdv, hres, ?_, ?_⟩
          · intro j pbj dj hj hgj hdj
            cases j with
            | zero =>
              simp at hgj
              rw [← hgj, hd] at hdj
              injection hdj with hde
              omega
            | succ j2 => exact hlo j2 pbj dj (by omega) (by simpa using hgj) hdj
          · intro j pbj dj hj hgj hdj
            cases j with
            | zero => omega
            | succ j2 => exact hhi j2 pbj dj (by omega) (by simpa using hgj) hdj
      · rw [if_neg hlt] at h
        rcases ih best res h with ⟨h1, h2⟩ | ⟨i, q, dv, hq, hdq, hbv, hres, hlo, hhi⟩
        · refine Or.inl ⟨h1, fun q hq dq hdq => ?_⟩
          rcases List.mem_cons.mp hq with rfl | hq2
          · rw [hd] at hdq
            injection hdq with hde
            omega
          · exact h2 q hq2 dq hdq
        · refine Or.inr ⟨i + 1, q, dv, by simpa using hq, hdq, hbv, hres, ?_, ?_⟩
          · intro j pbj dj hj hgj hdj
            cases j with
            | zero =>
              simp at hgj
              rw [← hgj, hd] at hdj
              injection hdj with hde
              omega
            | succ j2 => exact hlo j2 pbj dj (by omega) (by simpa using hgj) hdj
          · intro j pbj dj hj hgj hdj
            cases j with
            | zero => omega
            | succ j2 => exact hhi j2 pbj dj (by omega) (by simpa using hgj) hdj

lemma splLoop_recipient_nomatch (pre : List TokenBalance) (keys : List AccountMetaKey)
    (r : String) :
    ∀ (post : List TokenBalance) (best : Option TokenDeltaResult),
      (∀ pb ∈ post, entryMatch keys pb r = false) →
      splLoop pre keys (some r) post best = best := by
  intro post
  induction post with
  | nil => intro best _; rfl
  | cons pb rest ih =>
    intro best h
    simp only [splLoop]
    rw [if_neg (by simp [h pb (List.mem_cons_self pb rest)])]
    exact ih best (fun q hq => h q (List.mem_cons_of_mem pb hq))

lemma splLoop_recipient_match (pre : List TokenBalance) (keys : List AccountMetaKey)
    (r : String) :
    ∀ (post : List TokenBalance) (best : Option TokenDeltaResult) (i : Nat)
      (pb : TokenBalance),
      post.get? i = some pb → entryMatch keys pb r = true →
      (∀ j, j < i → matchAtIdx keys post r j = false) →
      splLoop pre keys (some r) post best = some (mkBest pre pb) := by
  intro post
  induction post with
  | nil => intro best i pb hget; simp at hget
  | cons q rest ih =>
    intro best i pb hget hmatch hbefore
    cases i with
    | zero =>
      simp only [List.get?] at hget
      injection hget with hq
      subst hq
      simp only [splLoop]
      rw [if_pos hmatch]
    | succ i2 =>
      have h0 : entryMatch keys q r = false := by
        have := hbefore 0 (Nat.succ_pos i2)
        simpa [matchAtIdx] using this
      simp only [splLoop]
      rw [if_neg (by simp [h0])]
      exact ih best i2 pb (by simpa using hget) hmatch
        (fun j hj => by
          have := hbefore (j + 1) (by omega)
          simpa [matchAtIdx] using this)

/-- C4: scanning post token balances without an expected recipient,
`findDeltaSPL` returns `none` exactly when no entry has a strictly positive
delta (so an all-zero-delta list gives an absent result, not a zero-delta
record), and otherwise returns the record of the first entry attaining the
maximum delta (strict greater-than improvement, ties keep the earliest
entry). -/
theorem C4_token_best_positive_scan (meta : GetTransactionMeta) (msg : TransactionMessage) :
    (findDeltaSPL meta msg none = none ↔
      ∀ pb ∈ meta.postTokenBalances.getD [], ∀ d,
        entryDelta (meta.preTokenBalances.getD []) pb = some d → d ≤ 0) ∧
    (∀ res, findDeltaSPL meta msg none = some res →
      ∃ i pb dv, (meta.postTokenBalances.getD []).get? i = some pb ∧
        entryDelta (meta.preTokenBalances.getD []) pb = some dv ∧ 0 < dv ∧
        res = mkBest (meta.preTokenBalances.getD []) pb ∧
        (∀ j pbj dj, j < i → (meta.postTokenBalances.getD []).get? j = some pbj →
          entryDelta (meta.preTokenBalances.getD []) pbj = some dj → dj < dv) ∧
        (∀ j pbj dj, (meta.postTokenBalances.getD []).get? j = some pbj →
          entryDelta (meta.preTokenBalances.getD []) pbj = some dj → dj ≤ dv)) := by
  constructor
  · rw [findDeltaSPL, show truthyS none = none from rfl,
      splLoop_none_iff (meta.preTokenBalances.getD []) msg.accountKeys]
    simp
  · intro res h
    rw [findDeltaSPL, show truthyS none = none from rfl] at h
    rcases splLoop_some_spec (meta.preTokenBalances.getD []) msg.accountKeys
      (meta.postTokenBalances.getD []) none res h with ⟨h1, _⟩ | ⟨i, pb, dv, hq, hdq, hbv, hres, hlo, hhi⟩
    · exact absurd h1 (by simp)
    · rw [show bestVal none = 0 from rfl] at hbv
      refine ⟨i, pb, dv, hq, hdq, hbv, hres, hlo, ?_⟩
      intro j pbj dj hgj hdj
      rcases lt_trichotomy j i with hji | hji | hji
      · exact le_of_lt (hlo j pbj dj hji hgj hdj)
      · subst hji
        rw [hq] at hgj
        injection hgj with he
        subst he
        rw [hdq] at hdj
        injection hdj with he2
        omega
      · exact hhi j pbj dj hji hgj hdj

/-- C4 witness: two entries with deltas 5 and 9 and no recipient — the
scan selects the entry with the maximum delta 9. -/
theorem C4_token_best_positive_scan_witness :
    findDeltaSPL w4meta w4msg none = some ⟨1, "M1", 2, some 9, some "O2"⟩ ∧
    (∃ i pb dv, (w4meta.postTokenBalances.getD []).get? i = some pb ∧
      entryDelta (w4meta.preTokenBalances.getD []) pb = some dv ∧ 0 < dv ∧
      (⟨1, "M1", 2, some 9, some "O2"⟩ : TokenDeltaResult) =
        mkBest (w4meta.preTokenBalances.getD []) pb ∧
      (∀ j pbj dj, j < i → (w4meta.postTokenBalances.getD []).get? j = some pbj →
        entryDelta (w4meta.preTokenBalances.getD []) pbj = some dj → dj < dv) ∧
      (∀ j pbj dj, (w4meta.postTokenBalances.getD []).get? j = some pbj →
        entryDelta (w4meta.preTokenBalances.getD []) pbj = some dj → dj ≤ dv)) :=
  ⟨by decide, (C4_token_best_positive_scan w4meta w4msg).2 _ (by decide)⟩

/-- C6: with an expected recipient, `findDeltaSPL` returns the first post
entry (in list order) whose owner or whose account key's address equals the
recipient — the source checks owner before address inside each entry, an
order that cannot change the returned record — and it returns that entry's
delta regardless of its sign. -/
theorem C6_token_recipient_first_match (meta : GetTransactionMeta)
    (msg : TransactionMessage) (r : String) (hr : r ≠ "") :
    ∀ i pb, (meta.postTokenBalances.getD []).get? i = some pb →
      entryMatch msg.accountKeys pb r = true →
      (∀ j, j < i →
        matchAtIdx msg.accountKeys (meta.postTokenBalances.getD []) r j = false) →
      findDeltaSPL meta msg (some r) =
        some (mkBest (meta.preTokenBalances.getD []) pb) := by
  intro i pb hget hmatch hbefore
  rw [findDeltaSPL, truthyS_ne hr]
  exact splLoop_recipient_match (meta.preTokenBalances.getD []) msg.accountKeys r
    (meta.postTokenBalances.getD []) none i pb hget hmatch hbefore

/-- C6 witness: the matching entry has the negative delta `3 - 10 = -7`
and is still returned immediately. -/
theorem C6_token_recipient_first_match_witness :
    findDeltaSPL w6meta w6msg (some "R") = some ⟨0, "M", 0, some (-7), some "R"⟩ := by
  have := C6_token_recipient_first_match w6meta w6msg "R" (by decide) 0
    (⟨0, "M", some "R", none, ⟨"3", 0⟩⟩) (by decide) (by decide) (by omega)
  rw [this]
  decide

/-- C10: with an expected recipient that matches no post entry (neither by
owner nor by account-key address), `findDeltaSPL` returns `none` even when
a non-matching entry has a strictly positive delta: an explicit recipient
fully disables the best-positive-delta scan. -/
theorem C10_token_recipient_no_substitution (meta : GetTransactionMeta)
    (msg : TransactionMessage) (r : String) (hr : r ≠ "")
    (hnm : ∀ pb ∈ meta.postTokenBalances.getD [],
      entryMatch msg.accountKeys pb r = false) :
    findDeltaSPL meta msg (some r) = none := by
  rw [findDeltaSPL, truthyS_ne hr]
  exact splLoop_recipient_nomatch (meta.preTokenBalances.getD []) msg.accountKeys r
    (meta.postTokenBalances.getD []) none hnm

/-- C10 witness: the only post entry has delta +100 but matches neither by
owner nor by address, so the result is absent. -/
theorem C10_token_recipient_no_substitution_witness :
    findDeltaSPL w10meta w10msg (some "R") = none :=
  C10_token_recipient_no_substitution w10meta w10msg "R" (by decide) (by decide)

/-- C3 counterexample: `accountKeys = [A, B]`, `preBalances = [0]`,
`postBalances = [0, 100]`, no recipient.  The claim says every account
index up to the accountKeys length is considered, which would select index
1 with delta 100; the source's loop is bounded by `preBalances.length` and
returns the sentinel instead. -/
theorem C3_missing_entries_counterexample :
    c3msg.accountKeys.length = 2 ∧
    keyAt c3msg.accountKeys 1 = some "B" ∧
    flInt (c3meta.postBalances.getD 1 0 - c3meta.preBalances.getD 1 0) = 100 ∧
    findDeltaSOL c3meta c3msg none = ⟨-1, 0⟩ ∧
    findDeltaSOL c3meta c3msg none ≠ ⟨1, 100⟩ := by
  refine ⟨by decide, by decide, by decide, by decide, by decide⟩

/-- C3 amended: `findDeltaSOL` never raises an error and treats missing
`postBalances` entries within the scanned range as 0 (zero-padding the post
array up to `preBalances.length` does not change the result), but the scan
covers only indices below `preBalances.length`: account keys beyond that
length are never considered (truncating `accountKeys` to that length does
not change the result either). -/
theorem C3_missing_entries_amended (meta : GetTransactionMeta) (msg : TransactionMessage)
    (r : Option String) :
    findDeltaSOL meta msg r =
      findDeltaSOL
        { meta with postBalances := padZeros meta.preBalances.length meta.postBalances }
        msg r ∧
    findDeltaSOL meta msg r =
      findDeltaSOL meta
        { msg with accountKeys := msg.accountKeys.take meta.preBalances.length } r := by
  constructor
  · rw [findDeltaSOL, findDeltaSOL]
    exact solLoop_congr _ _ _ _ _ meta.preBalances 0 (-1) 0 (fun j _ _ => rfl)
      (fun j _ _ => (padZeros_getD meta.preBalances.length meta.postBalances j).symm)
  · rw [findDeltaSOL, findDeltaSOL]
    exact solLoop_congr _ _ _ _ _ meta.preBalances 0 (-1) 0
      (fun j _ h2 => (List.get?_take (by simpa using h2)).symm)
      (fun j _ _ => rfl)

/-- C5: the dispatcher evaluates the token path before the native path.
If the token resolver returns a record with a strictly positive delta the
report is the token classification (and in particular is never the native
classification), regardless of the native delta; otherwise a strictly
positive native delta gives the native classification; otherwise the report
is the unknown kind carrying only the Party Inferrer's sender/recipient
guesses (no amount fields). -/
theorem C5_dispatch_token_first (meta : GetTransactionMeta) (msg : TransactionMessage)
    (rf : String) :
    (∀ s, findDeltaSPL meta msg (strToOpt rf) = some s → oPos s.delta = true →
      buildReport meta msg rf =
        Report.spl s.mint s.delta s.decimals
          (jsOrS (strToOpt rf)
            (jsOrS s.owner ((msg.accountKeys.get? s.accountIndex).map (·.pubkey)))) ∧
      ∀ a b, buildReport meta msg rf ≠ Report.sol a b) ∧
    ((∀ s, findDeltaSPL meta msg (strToOpt rf) = some s → oPos s.delta = false) →
      0 < (findDeltaSOL meta msg (strToOpt rf)).deltaLamports →
      buildReport meta msg rf =
        Report.sol (findDeltaSOL meta msg (strToOpt rf)).deltaLamports
          (jsOrS (strToOpt rf)
            (keyAtInt msg.accountKeys (findDeltaSOL meta msg (strToOpt rf)).index))) ∧
    ((∀ s, findDeltaSPL meta msg (strToOpt rf) = some s → oPos s.delta = false) →
      ¬ 0 < (findDeltaSOL meta msg (strToOpt rf)).deltaLamports →
      buildReport meta msg rf =
        Report.unknownKind (inferParties msg).sender (inferParties msg).recipient) := by
  refine ⟨?_, ?_, ?_⟩
  · intro s hs hpos
    rw [buildReport, hs]
    dsimp only
    rw [if_pos hpos]
    exact ⟨rfl, fun a b => by simp⟩
  · intro hneg hsol
    rw [buildReport]
    cases hs : findDeltaSPL meta msg (strToOpt rf) with
    | none =>
      dsimp only
      rw [if_pos hsol]
    | some s =>
      dsimp only
      rw [if_neg (by simp [hneg s hs]), if_pos hsol]
  · intro hneg hsol
    rw [buildReport]
    cases hs : findDeltaSPL meta msg (strToOpt rf) with
    | none =>
      dsimp only
      rw [if_neg hsol]
    | some s =>
      dsimp only
      rw [if_neg (by simp [hneg s hs]), if_neg hsol]

/-- C5 witness: a synthetic transaction with both a positive token delta
(+7 for owner B) and a positive native delta (+100 at B's index) is
classified as a token report, never as a native one. -/
theorem C5_dispatch_token_first_witness :
    findDeltaSPL w5meta w5msg (strToOpt "") = some ⟨1, "M", 0, some 7, some "B"⟩ ∧
    0 < (findDeltaSOL w5meta w5msg (strToOpt "")).deltaLamports ∧
    buildReport w5meta w5msg "" = Report.spl "M" (some 7) 0 (some "B") ∧
    ∀ a b, buildReport w5meta w5msg "" ≠ Report.sol a b := by
  have h := (C5_dispatch_token_first w5meta w5msg "").1
    ⟨1, "M", 0, some 7, some "B"⟩ (by decide) (by decide)
  refine ⟨by decide, by decide, ?_, h.2⟩
  rw [h.1]
  decide

lemma find?_first {α : Type} (p : α → Bool) :
    ∀ (l : List α) (k : Nat) (a : α), l.get? k = some a → p a = true →
      (∀ j b, j < k → l.get? j = some b → p b = false) → l.find? p = some a := by
  intro l
  induction l with
  | nil => intro k a h; simp at h
  | cons x xs ih =>
    intro k a hget hpa hbefore
    cases k with
    | zero =>
      simp only [List.get?] at hget
      injection hget with he
      subst he
      rw [List.find?_cons_of_pos _ hpa]
    | succ k2 =>
      have hx : p x = false := hbefore 0 x (Nat.succ_pos k2) rfl
      rw [List.find?_cons_of_neg _ (by simp [hx])]
      exact ih k2 a (by simpa using hget) hpa
        (fun j b hj hg => hbefore (j + 1) b (by omega) (by simpa using hg))

lemma enumFrom_find_writable :
    ∀ (l : List AccountMetaKey) (n : Nat), 0 < n →
      ((List.enumFrom n l).find? (fun p => 0 < p.1 && p.2.writable)).map (·.2.pubkey) =
        (l.find? (·.writable)).map (·.pubkey) := by
  intro l
  induction l with
  | nil => intro n _; rfl
  | cons k rest ih =>
    intro n hn
    simp only [List.enumFrom]
    by_cases hw : k.writable
    · rw [List.find?_cons_of_pos _ (by simp [hw, hn]),
        List.find?_cons_of_pos _ (by simp [hw])]
      rfl
    · rw [List.find?_cons_of_neg _ (by simp [hw]),
        List.find?_cons_of_neg _ (by simp [hw])]
      exact ih (n + 1) (by omega)

/-- C8: `inferParties` returns as sender the address at index 0, and as
recipient the address of the first account at an index greater than 0 whose
writable flag is set (first match in order; absent when no such account
exists). -/
theorem C8_infer_parties (msg : TransactionMessage) :
    (inferParties msg).sender = (msg.accountKeys.get? 0).map (·.pubkey) ∧
    (∀ k ak, msg.accountKeys.get? k = some ak → 0 < k → ak.writable = true →
      (∀ j, j < k → 0 < j → writableAt msg.accountKeys j = false) →
      (inferParties msg).recipient = some ak.pubkey) ∧
    ((∀ j, j < msg.accountKeys.length → 0 < j → writableAt msg.accountKeys j = false) →
      (inferParties msg).recipient = none) := by
  refine ⟨rfl, ?_, ?_⟩
  · intro k ak hget hk hwr hbefore
    cases hmsg : msg.accountKeys with
    | nil => rw [hmsg] at hget; simp at hget
    | cons k0 rest =>
      have hrec : (inferParties msg).recipient =
          (rest.find? (·.writable)).map (·.pubkey) := by
        rw [inferParties]
        dsimp only
        rw [hmsg]
        rw [show List.enum (k0 :: rest) = (0, k0) :: List.enumFrom 1 rest from rfl]
        rw [List.find?_cons_of_neg _ (by simp)]
        exact enumFrom_find_writable rest 1 (by omega)
      rw [hrec]
      cases k with
      | zero => omega
      | succ k2 =>
        rw [hmsg] at hget
        have hfind : rest.find? (·.writable) = some ak :=
          find?_first _ rest k2 ak (by simpa using hget) hwr
            (fun j b hj hg => by
              have h2 := hbefore (j + 1) (by omega) (by omega)
              rw [hmsg] at h2
              simp only [writableAt, List.get?] at h2
              rw [hg] at h2
              simpa using h2)
        rw [hfind]
        rfl
  · intro hnone
    cases hmsg : msg.accountKeys with
    | nil =>
      rw [inferParties]
      dsimp only
      rw [hmsg]
      rfl
    | cons k0 rest =>
      have hrec : (inferParties msg).recipient =
          (rest.find? (·.writable)).map (·.pubkey) := by
        rw [inferParties]
        dsimp only
        rw [hmsg]
        rw [show List.enum (k0 :: rest) = (0, k0) :: List.enumFrom 1 rest from rfl]
        rw [List.find?_cons_of_neg _ (by simp)]
        exact enumFrom_find_writable rest 1 (by omega)
      rw [hrec]
      rw [List.find?_eq_none.mpr ?_]
      · rfl
      · intro b hb
        rcases List.mem_iff_get?.mp hb with ⟨j, hj⟩
        have hjlen : j < rest.length := by
          by_contra hcon
          push_neg at hcon
          rw [List.get?_len_le hcon] at hj
          simp at hj
        have := hnone (j + 1) (by rw [hmsg]; simpa using by omega) (by omega)
        rw [hmsg] at this
        simp only [writableAt, List.get?] at this
        rw [hj] at this
        simp at this
        simp [this]

/-- C8 witness: `accountKeys = [A, B]` with `B` writable and not a signer
gives sender `A` and recipient `B`. -/
theorem C8_infer_parties_witness :
    (inferParties w8msg).sender = some "A" ∧ (inferParties w8msg).recipient = some "B" := by
  have h := C8_infer_parties w8msg
  refine ⟨by rw [h.1]; decide, ?_⟩
  exact h.2.1 1 ⟨"B", false, true⟩ (by decide) (by decide) (by decide) (by decide)

/-- C9 counterexample: the claim says the sender comes from the first
parsed instruction *that carries* a `source`, `authority` or `owner` field
(here the second instruction, giving `S`); the code instead takes the first
instruction with any `parsed.info` (the first one, which has none of the
three fields) and falls back to the party inferrer's sender `A`. -/
theorem C9_sender_refinement_counterexample :
    refineSender c9msg = some "A" ∧
    refineSenderClaimed c9msg = some "S" ∧
    refineSender c9msg ≠ refineSenderClaimed c9msg := by
  refine ⟨by decide, by decide, by decide⟩

/-- C9 amended: the sender is taken from the first instruction that has
`parsed.info` at all; within that single instruction the `source`,
`authority` and `owner` fields are checked in that priority order (JS
falsiness: absent or empty fields are skipped), and the Party Inferrer's
sender guess is used when that instruction lacks all three fields or when
no instruction has `parsed.info`. -/
theorem C9_sender_refinement_amended (msg : TransactionMessage) :
    (∀ i ix nf, msg.instructions.get? i = some ix → ix.parsedInfo = some nf →
      (∀ j, j < i → infoAt msg.instructions j = false) →
      refineSender msg =
        jsOrS nf.source (jsOrS nf.authority (jsOrS nf.owner (inferParties msg).sender))) ∧
    ((∀ ix ∈ msg.instructions, ix.parsedInfo = none) →
      refineSender msg = (inferParties msg).sender) := by
  constructor
  · intro i ix nf hget hinfo hbefore
    have hfind : msg.instructions.find? (fun x => x.parsedInfo.isSome) = some ix :=
      find?_first _ msg.instructions i ix hget (by simp [hinfo])
        (fun j b hj hg => by
          have h2 := hbefore j hj
          simp only [infoAt] at h2
          rw [hg] at h2
          simpa using h2)
    rw [refineSender, hfind]
    simp [hinfo]
  · intro hnone
    have hfind : msg.instructions.find? (fun x => x.parsedInfo.isSome) = none :=
      List.find?_eq_none.mpr (fun x hx => by simp [hnone x hx])
    rw [refineSender, hfind]
    rfl

/-- C9 witness: a single instruction whose info has no `source` but carries
`authority = AuthZ` and `owner = OwnQ`; the priority order picks the
authority. -/
theorem C9_sender_refinement_amended_witness :
    refineSender w9msg = some "AuthZ" := by
  have h := (C9_sender_refinement_amended w9msg).1 0 ⟨"p", "pid", some ⟨none, some "AuthZ", some "OwnQ"⟩⟩
    ⟨none, some "AuthZ", some "OwnQ"⟩ (by decide) (by decide) (by omega)
  rw [h]
  decide

lemma b58Run_all {cs : List Char} (h : ∀ c ∈ cs, isB58 c = true) :
    b58Run cs = cs.length := by
  induction cs with
  | nil => rfl
  | cons c rest ih =>
    simp only [b58Run]
    rw [if_pos (h c (List.mem_cons_self c rest)),
      ih (fun x hx => h x (List.mem_cons_of_mem c hx))]
    rfl

lemma listStarts_subset :
    ∀ {mk cs : List Char}, listStarts mk cs = true → ∀ p ∈ mk, p ∈ cs := by
  intro mk
  induction mk with
  | nil => intro cs _ p hp; simp at hp
  | cons x xs ih =>
    intro cs h p hp
    cases cs with
    | nil => simp [listStarts] at h
    | cons c rest =>
      simp only [listStarts, Bool.and_eq_true, beq_iff_eq] at h
      rcases List.mem_cons.mp hp with rfl | hp2
      · rw [h.1]
        exact List.mem_cons_self c rest
      · exact List.mem_cons_of_mem c (ih h.2 p hp2)

lemma b58_not_ws {c : Char} (h : isB58 c = true) : isJsWs c = false := by
  by_contra hcon
  rw [Bool.not_eq_false] at hcon
  simp only [isJsWs, Bool.or_eq_true, beq_iff_eq] at hcon
  rcases hcon with ((((rfl | rfl) | rfl) | rfl) | rfl) | rfl <;>
    exact absurd h (by decide)

lemma dropWhile_ws_eq_self {l : List Char} (h : ∀ c ∈ l, isJsWs c = false) :
    l.dropWhile isJsWs = l := by
  cases l with
  | nil => rfl
  | cons c rest =>
    rw [List.dropWhile_cons_of_neg (by simp [h c (List.mem_cons_self c rest)])]

lemma jsTrim_eq_self {l : List Char} (h : ∀ c ∈ l, isJsWs c = false) : jsTrim l = l := by
  rw [jsTrim, dropWhile_ws_eq_self h,
    dropWhile_ws_eq_self (fun c hc => h c (List.mem_reverse.mp hc)), List.reverse_reverse]

lemma markers_no_match {cs : List Char} (hb : ∀ c ∈ cs, isB58 c = true) :
    ∀ mk ∈ sigMarkers, listStarts mk cs = false := by
  intro mk hmk
  by_contra hcon
  rw [Bool.not_eq_false] at hcon
  have hdot : ('.' : Char) ∈ cs := by
    apply listStarts_subset hcon
    simp only [sigMarkers, List.mem_cons] at hmk
    rcases hmk with rfl | rfl | rfl | h0 <;> first | decide | simp at h0
  exact absurd (hb '.' hdot) (by decide)

lemma matchHere_allb58 {cs : List Char} (hb : ∀ c ∈ cs, isB58 c = true)
    (h87 : 87 ≤ cs.length) (h88 : cs.length ≤ 88) :
    matchHere cs true = some cs := by
  rw [matchHere]
  have hfs : sigMarkers.findSome? (fun mk =>
      if listStarts mk cs then captureAt (cs.drop mk.length) else none) = none := by
    rw [List.findSome?_eq_none]
    intro mk hmk
    rw [if_neg (by simp [markers_no_match hb mk hmk])]
  rw [hfs, if_pos rfl, captureAt, if_pos (by rw [b58Run_all hb]; exact h87)]
  rw [b58Run_all hb, min_eq_left h88, List.take_length]

lemma scanFrom_of_matchHere (cs : List Char) (b : Bool) (out : List Char)
    (h : matchHere cs b = some out) : scanFrom cs b = some out := by
  cases cs with
  | nil =>
    have hnone : matchHere [] b = none := by cases b <;> decide
    rw [hnone] at h
    exact absurd h (by simp)
  | cons c rest => rw [scanFrom, h]

/-- C7 counterexample: an 84-character base58 string (claimed to be an
accepted raw signature) yields no signature — the regex requires 87 to 88
characters — and the fetch is blocked with a validation error. -/
theorem C7_signature_length_counterexample :
    sig84.data.length = 84 ∧ (∀ c ∈ sig84.data, isB58 c = true) ∧
    parseSignature sig84 = none ∧ fetchGate sig84 = FetchOutcome.validationError := by
  refine ⟨by decide, by decide, by decide, by decide⟩

/-- C7 amended: signature extraction accepts a raw base58 signature of 87
to 88 characters (not 84 to 88; alphabet excluding `0OIl`) — and, as the
`url87` conjunct illustrates, a known explorer URL containing one — while
any input in which no signature is recognised yields `none`, upon which
`handleFetch` surfaces a validation error before any network call. -/
theorem C7_signature_extraction_amended (input : String)
    (h87 : 87 ≤ input.data.length) (h88 : input.data.length ≤ 88)
    (hb : ∀ c ∈ input.data, isB58 c = true) :
    parseSignature input = some input ∧
    parseSignature url87 = some sig87 ∧
    (∀ inp : String, parseSignature inp = none →
      fetchGate inp = FetchOutcome.validationError) := by
  refine ⟨?_, by decide, ?_⟩
  · have ht : jsTrim input.data = input.data :=
      jsTrim_eq_self (fun c hc => b58_not_ws (hb c hc))
    rw [parseSignature, ht]
    rw [if_neg ?hne]
    case hne =>
      cases hd : input.data with
      | nil => rw [hd] at h87; simp at h87
      | cons c rest => simp
    rw [scanFrom_of_matchHere _ _ _ (matchHere_allb58 hb h87 h88)]
    cases input
    rfl
  · intro inp h
    rw [fetchGate, h]

/-- C7 witness: the 87-character base58 string `sig87` is accepted as is. -/
theorem C7_signature_extraction_amended_witness :
    parseSignature sig87 = some sig87 ∧
    parseSignature url87 = some sig87 ∧
    (∀ inp : String, parseSignature inp = none →
      fetchGate inp = FetchOutcome.validationError) :=
  C7_signature_extraction_amended sig87 (by decide) (by decide) (by decide)
